import Mathlib

/-!
Verification of the polyfill-mapping pipeline of `accelerating-adoption`.

This file gives a shallow embedding of the two build scripts
`scripts/generate-polyfill-mappings.js` and `scripts/generate-npm-stats.js`
and proves / refutes the specification's claims about them.

Conventions of the embedding:
* JavaScript plain objects (used as string-keyed maps) are modelled by
  association lists `JsObj α := List (String × α)` with unique keys, in
  insertion order, because `Object.entries`, `JSON.stringify` and `for..in`
  observe insertion order for non-integer-like string keys.  Property
  assignment updates an existing key in place and appends a fresh key at the
  end; `delete` removes the pair; these are exactly `jsSet` / `jsDelete`.
  A JavaScript `Map` (used for URL deduplication) has the same observable
  insertion/update behaviour and is modelled by the same operations.
* Strings are Lean `String`s; where character-level work is needed
  (`slugToPath`, the URL regexes) we work on `String.data : List Char`.
  JavaScript's default sort comparator compares strings by code unit, which
  on the characters appearing in feature ids coincides with comparison of
  `Char.toNat`; this is `lexLt`/`lexLe` below.
* `undefined`/absent record fields become `Option`; JavaScript truthiness of
  an object-valued field is `Option.isSome` (objects are always truthy),
  truthiness of a string is non-emptiness.
* Timestamps are epoch milliseconds as `Int`; the script's
  `new Date().toISOString()` calls during one run are modelled by a single
  clock value `now`.
-/

/-- A JavaScript object used as a string-keyed map: an association list in
insertion order with (by construction) unique keys. -/
abbrev JsObj (α : Type) : Type := List (String × α)

/-- Property read `m[k]`: the value at the first matching key, if any. -/
def jsGet {α : Type} : JsObj α → String → Option α
  | [], _ => none
  | p :: rest, k => if p.1 = k then some p.2 else jsGet rest k

/-- Property write `m[k] = v`: update the existing key in place, else append
the new pair at the end (JavaScript insertion-order semantics). -/
def jsSet {α : Type} : JsObj α → String → α → JsObj α
  | [], k, v => [(k, v)]
  | p :: rest, k, v => if p.1 = k then (k, v) :: rest else p :: jsSet rest k v

/-- Property removal `delete m[k]`. -/
def jsDelete {α : Type} : JsObj α → String → JsObj α
  | [], _ => []
  | p :: rest, k => if p.1 = k then jsDelete rest k else p :: jsDelete rest k

/-- `Object.keys m`, in insertion order. -/
def jsKeys {α : Type} (m : JsObj α) : List String :=
  m.map Prod.fst

/-- One auto-discovered or manually authored fallback entry
(`{type, url, npm?, github?, description?}`); optional fields model
properties that the script only conditionally sets. -/
structure Fallback where
  type : String
  url : String
  npm : Option String
  github : Option String
  description : Option String
deriving DecidableEq, Repr

/-- The per-feature record stored in the mapping: `{fallbacks: [...]}`. -/
structure FeatureRecord where
  fallbacks : List Fallback
deriving DecidableEq, Repr

/-- One entry of `polyfills-overrides.json`:
`{exclude?, replace?, fallbacks?}`.  The booleans model the truthiness the
script tests with `if (override.exclude)` / `if (override.replace)`;
`fallbacks = none` models an absent (`undefined`) property, which the script
distinguishes via `override.fallbacks !== undefined`. -/
structure Override where
  exclude : Bool
  replace : Bool
  fallbacks : Option (List Fallback)
deriving DecidableEq, Repr

/-- A raw candidate link `{url, text}` produced by the "See also" parser. -/
structure Link where
  url : String
  text : String
deriving DecidableEq, Repr

/-- One entry of `npm-stats.json` as written by the current script:
`{downloads: number|null, lastModified: ISO timestamp}`.  `lastModified` is
optional to model legacy entries missing the timestamp, which
`needsRefresh` explicitly checks for. -/
structure StatsEntry where
  downloads : Option Int
  lastModified : Option Int
deriving DecidableEq, Repr

/-- Code-unit lexicographic strict order on character lists, the order
JavaScript's default `Array.prototype.sort` comparator induces on strings. -/
def lexLt : List Char → List Char → Bool
  | [], [] => false
  | [], _ :: _ => true
  | _ :: _, [] => false
  | a :: as, b :: bs => if a = b then lexLt as bs else decide (a.toNat < b.toNat)

/-- Code-unit lexicographic (non-strict) order on character lists. -/
def lexLe : List Char → List Char → Bool
  | [], _ => true
  | _ :: _, [] => false
  | a :: as, b :: bs => if a = b then lexLe as bs else decide (a.toNat < b.toNat)

/-- Strict string order used by `Array.prototype.sort()` on keys. -/
def strLt (a b : String) : Bool :=
  lexLt a.data b.data

/-- Non-strict string order used by `Array.prototype.sort()` on keys. -/
def strLe (a b : String) : Bool :=
  lexLe a.data b.data

/-- Insert a key into an already sorted key list (helper realising the
observable contract of `Array.prototype.sort()`: an ascending reordering). -/
def insertSorted (k : String) : List String → List String
  | [] => [k]
  | x :: rest => if strLe k x then k :: x :: rest else x :: insertSorted k rest

/-- `keys.sort()`: ascending code-unit order. -/
def sortKeys (l : List String) : List String :=
  l.foldr insertSorted []

/-- The replacement text for `::` in `slugToPath`. -/
def dcolonRepl : List Char := ['_', 'd', 'o', 'u', 'b', 'l', 'e', 'c', 'o', 'l', 'o', 'n', '_']

/-- The replacement text for `:` in `slugToPath`. -/
def colonRepl : List Char := ['_', 'c', 'o', 'l', 'o', 'n', '_']

/-- The replacement text for `*` in `slugToPath`. -/
def starRepl : List Char := ['_', 's', 't', 'a', 'r', '_']

/-- `.replace(/::/g, repl)`: leftmost, non-overlapping replacement of the
two-character pattern `::`. -/
def replaceDColon (repl : List Char) : List Char → List Char
  | [] => []
  | [c] => [c]
  | c₁ :: c₂ :: rest =>
    if c₁ = ':' ∧ c₂ = ':' then repl ++ replaceDColon repl rest
    else c₁ :: replaceDColon repl (c₂ :: rest)

/-- `.replace(/p/g, repl)` for a single character `p`. -/
def replaceChar (p : Char) (repl : List Char) : List Char → List Char
  | [] => []
  | c :: rest =>
    if c = p then repl ++ replaceChar p repl rest
    else c :: replaceChar p repl rest

/-- `slugToPath` (scripts/generate-polyfill-mappings.js, lines 52-58):
lowercase, then replace `::`, then `:`, then `*` by their escape substrings,
in that order. -/
def slugToPath (slug : List Char) : List Char :=
  replaceChar '*' starRepl
    (replaceChar ':' colonRepl
      (replaceDColon dcolonRepl (slug.map Char.toLower)))

/-- The literal part `npmjs\.com\/package\/` of the npm-package regex. -/
def npmLit : List Char := "npmjs.com/package/".data

/-- The literal part `github\.com\/` of the GitHub-repo regex. -/
def ghLit : List Char := "github.com/".data

/-- Character class `[^\/\?#]` of the URL regexes. -/
def segChar (c : Char) : Bool :=
  !(c = '/' || c = '?' || c = '#')

/-- Greedy match of `[^\/\?#]+`-maximal run. -/
def takeSeg (s : List Char) : List Char :=
  s.takeWhile segChar

/-- The optional group `(?:\/[^\/\?#]+)?`: a `/` followed by a nonempty run
of name characters, or nothing. -/
def optSecondSeg (s : List Char) : List Char :=
  match s with
  | '/' :: rest =>
    let seg := takeSeg rest
    if seg.isEmpty then [] else '/' :: seg
  | _ => []

/-- The capture group `@?[^\/\?#]+(?:\/[^\/\?#]+)?` matched greedily at the
start of `s`, with the engine's backtracking on the optional `@` (when `@` is
followed by a delimiter, `@` itself is matched by `[^\/\?#]+`). -/
def matchPkgName (s : List Char) : Option (List Char) :=
  match s with
  | '@' :: rest =>
    let seg := takeSeg rest
    if seg.isEmpty then some ('@' :: optSecondSeg rest)
    else some ('@' :: (seg ++ optSecondSeg (rest.drop seg.length)))
  | _ =>
    let seg := takeSeg s
    if seg.isEmpty then none else some (seg ++ optSecondSeg (s.drop seg.length))

/-- `extractNpmPackage` (scripts/generate-polyfill-mappings.js, lines
139-143): leftmost match of
`/npmjs\.com\/package\/(@?[^\/\?#]+(?:\/[^\/\?#]+)?)/`, returning the
capture group; the scan resumes one character further on a failed position,
exactly as the regex engine does. -/
def extractNpmPackage : List Char → Option (List Char)
  | [] => none
  | c :: rest =>
    if npmLit.isPrefixOf (c :: rest) then
      match matchPkgName ((c :: rest).drop npmLit.length) with
      | some name => some name
      | none => extractNpmPackage rest
    else extractNpmPackage rest

/-- Strip one trailing `.git`, as `.replace(/\.git$/, '')` does. -/
def stripGitSuffix (r : List Char) : List Char :=
  if ['.', 'g', 'i', 't'].isSuffixOf r then r.take (r.length - 4) else r

/-- The capture group `([^\/]+\/[^\/\?#]+)` matched greedily at the start of
`s` (the maximal `[^\/]+` run is the only one that can be followed by `/`,
so no backtracking arises). -/
def matchRepo (s : List Char) : Option (List Char) :=
  let seg1 := s.takeWhile (fun c => !(c = '/'))
  if seg1.isEmpty then none
  else
    match s.drop seg1.length with
    | '/' :: rest =>
      let seg2 := takeSeg rest
      if seg2.isEmpty then none else some (seg1 ++ '/' :: seg2)
    | _ => none

/-- `extractGithubRepo` (scripts/generate-polyfill-mappings.js, lines
146-149): leftmost match of `/github\.com\/([^\/]+\/[^\/\?#]+)/` with the
trailing `.git` stripped from the capture. -/
def extractGithubRepo : List Char → Option (List Char)
  | [] => none
  | c :: rest =>
    if ghLit.isPrefixOf (c :: rest) then
      match matchRepo ((c :: rest).drop ghLit.length) with
      | some r => some (stripGitSuffix r)
      | none => extractGithubRepo rest
    else extractGithubRepo rest

/-- `new Map(allPolyfillLinks.map(link => [link.url, link])).values()`
(scripts/generate-polyfill-mappings.js, lines 184-187): deduplicate links by
url, keeping the first-insertion position and the last value per url. -/
def uniqueByUrl (links : List Link) : List Link :=
  (links.foldl (fun m l => jsSet m l.url l) []).map Prod.snd

/-- Building one `Fallback` from a deduplicated link
(scripts/generate-polyfill-mappings.js, lines 189-204); conditional property
assignments become `Option` fields, `if (link.text)` is string truthiness. -/
def mkFallback (l : Link) : Fallback :=
  { type := "polyfill"
    url := l.url
    npm := (extractNpmPackage l.url.data).map (fun cs => String.mk cs)
    github := (extractGithubRepo l.url.data).map (fun cs => String.mk cs)
    description := if l.text = "" then none else some l.text }

/-- The per-feature auto-discovery result: the concatenated polyfill links of
all the feature's slugs, deduplicated by url and normalized into fallbacks
(scripts/generate-polyfill-mappings.js, lines 176-204). -/
def dedupedFallbacks (allPolyfillLinks : List Link) : List Fallback :=
  (uniqueByUrl allPolyfillLinks).map mkFallback

/-- The key-sort at the end of `generateMappings`
(scripts/generate-polyfill-mappings.js, lines 214-220):
`Object.keys(mappings).sort().reduce(...)` rebuilds the object with keys in
ascending order. -/
def sortMappings {α : Type} (m : JsObj α) : JsObj α :=
  (sortKeys (jsKeys m)).filterMap (fun k => (jsGet m k).map (fun v => (k, v)))

/-- One iteration of the override-merge loop in `main`
(scripts/generate-polyfill-mappings.js, lines 247-271): `exclude` deletes the
feature; otherwise, when `fallbacks` is present, `replace` overwrites the
entry and the default augments an existing entry or creates a new one; an
entry with neither is a no-op. -/
def applyOverride (m : JsObj FeatureRecord) (fid : String) (ov : Override) :
    JsObj FeatureRecord :=
  if ov.exclude then jsDelete m fid
  else
    match ov.fallbacks with
    | some fbs =>
      if ov.replace then jsSet m fid ⟨fbs⟩
      else
        match jsGet m fid with
        | some r => jsSet m fid ⟨r.fallbacks ++ fbs⟩
        | none => jsSet m fid ⟨fbs⟩
    | none => m

/-- The whole override-merge loop of `main` over `Object.entries(overrides)`
(scripts/generate-polyfill-mappings.js, lines 247-271). -/
def mergeOverrides (m : JsObj FeatureRecord) (ovs : List (String × Override)) :
    JsObj FeatureRecord :=
  ovs.foldl (fun acc p => applyOverride acc p.1 p.2) m

/-- The final merged mapping as serialized by `main`: the sorted
auto-discovery result with the overrides merged in afterwards
(scripts/generate-polyfill-mappings.js, lines 229-275). -/
def finalMappings (auto : JsObj FeatureRecord) (ovs : List (String × Override)) :
    JsObj FeatureRecord :=
  mergeOverrides (sortMappings auto) ovs

/-- Outcome of reading and parsing `polyfills-overrides.json`: the file may
be missing (read throws), present but malformed (`JSON.parse` throws), or
parse to a list of entries. -/
inductive OverridesSource : Type
  | missing : OverridesSource
  | malformed : OverridesSource
  | parsed : List (String × Override) → OverridesSource
deriving DecidableEq

/-- The override-loading step of `main`
(scripts/generate-polyfill-mappings.js, lines 232-244): a single `try/catch`
around read + parse + underscore-filter whose catch branch yields the empty
override set; the function is total — no outcome aborts the run. -/
def loadOverrides : OverridesSource → List (String × Override)
  | OverridesSource.missing => []
  | OverridesSource.malformed => []
  | OverridesSource.parsed entries =>
    entries.filter (fun p => !(p.1.startsWith "_"))

/-- `ONE_WEEK_MS` (scripts/generate-npm-stats.js, line 28). -/
def ONE_WEEK_MS : Int := 7 * 24 * 60 * 60 * 1000

/-- `needsRefresh` (scripts/generate-npm-stats.js, lines 46-68): refresh when
forced, when the package was never queried, when the entry lacks a
`lastModified` timestamp, or when it is older than one week. -/
def needsRefresh (force : Bool) (now : Int) (entry : Option StatsEntry) : Bool :=
  if force then true
  else
    match entry with
    | none => true
    | some e =>
      match e.lastModified with
      | none => true
      | some lm => decide (now - lm > ONE_WEEK_MS)

/-- `packages.filter(pkg => needsRefresh(pkg, existingStats))`
(scripts/generate-npm-stats.js, line 133). -/
def packagesToRefresh (force : Bool) (now : Int) (packages : List String)
    (existing : JsObj StatsEntry) : List String :=
  packages.filter (fun p => needsRefresh force now (jsGet existing p))

/-- `fetchAllStats` (scripts/generate-npm-stats.js, lines 131-176): start
from a copy of the existing stats, and for each stale package either store
the fetched downloads with a fresh timestamp, or — when the fetch failed —
store a `downloads: null` record only when no entry is present
(`!stats[packageName]`; entries are objects, hence truthy exactly when
present).  `fetchRes` gives each package's fetch outcome
(`fetchPackageStats`, lines 93-123, returns the count or `null`). -/
def fetchAllStats (force : Bool) (now : Int) (fetchRes : String → Option Int)
    (packages : List String) (existing : JsObj StatsEntry) : JsObj StatsEntry :=
  (packagesToRefresh force now packages existing).foldl
    (fun stats pkg =>
      match fetchRes pkg with
      | some d => jsSet stats pkg ⟨some d, some now⟩
      | none =>
        match jsGet stats pkg with
        | none => jsSet stats pkg ⟨none, some now⟩
        | some _ => stats)
    existing

/-- Specification-side predicate for claim C9: the text right after the
literal `npmjs.com/package/` starts with at least one character that can
begin a package name (anything but `/`, `?`, `#`). -/
def nameStart : List Char → Bool
  | [] => false
  | c :: _ => segChar c

/-- Sample fallback entry used in concrete check inputs. -/
def fbA : Fallback :=
  { type := "polyfill", url := "https://a.example/p", npm := none, github := none,
    description := none }

/-- A second sample fallback entry used in concrete check inputs. -/
def fbB : Fallback :=
  { type := "polyfill", url := "https://b.example/p", npm := none, github := none,
    description := none }

/-! ## Basic lemmas about the JavaScript object model -/

theorem jsGet_jsSet_self {α : Type} (m : JsObj α) (k : String) (v : α) :
    jsGet (jsSet m k v) k = some v := by
  induction m with
  | nil => simp [jsSet, jsGet]
  | cons p rest ih =>
    by_cases h : p.1 = k
    · simp [jsSet, h, jsGet]
    · simp [jsSet, h, jsGet, ih]

theorem jsGet_jsSet_ne {α : Type} (m : JsObj α) (k k' : String) (v : α)
    (h : k' ≠ k) : jsGet (jsSet m k' v) k = jsGet m k := by
  induction m with
  | nil => simp [jsSet, jsGet, h]
  | cons p rest ih =>
    by_cases hp : p.1 = k'
    · simp [jsSet, hp, jsGet, h, hp ▸ h]
    · simp [jsSet, hp, jsGet, ih]

theorem jsGet_jsDelete_self {α : Type} (m : JsObj α) (k : String) :
    jsGet (jsDelete m k) k = none := by
  induction m with
  | nil => simp [jsDelete, jsGet]
  | cons p rest ih =>
    by_cases h : p.1 = k
    · simp [jsDelete, h, ih]
    · simp [jsDelete, h, jsGet, ih]

theorem jsGet_jsDelete_ne {α : Type} (m : JsObj α) (k k' : String)
    (h : k' ≠ k) : jsGet (jsDelete m k') k = jsGet m k := by
  induction m with
  | nil => simp [jsDelete]
  | cons p rest ih =>
    by_cases hp : p.1 = k'
    · simp [jsDelete, hp, jsGet, h, ih]
    · simp [jsDelete, hp, jsGet, ih]

theorem jsDelete_eq_filter {α : Type} (m : JsObj α) (k : String) :
    jsDelete m k = m.filter (fun p => !(p.1 = k)) := by
  induction m with
  | nil => rfl
  | cons p rest ih =>
    by_cases hp : p.1 = k
    · simp [jsDelete, hp, List.filter, ih]
    · simp [jsDelete, hp, List.filter, ih]

theorem jsKeys_jsDelete {α : Type} (m : JsObj α) (k : String) :
    jsKeys (jsDelete m k) = (jsKeys m).filter (fun x => !(x = k)) := by
  rw [jsDelete_eq_filter, jsKeys, jsKeys, List.filter_map]
  rfl

theorem jsGet_eq_none_of_not_mem_keys {α : Type} (m : JsObj α) (k : String)
    (h : k ∉ jsKeys m) : jsGet m k = none := by
  induction m with
  | nil => rfl
  | cons p rest ih =>
    simp only [jsKeys, List.map_cons, List.mem_cons] at h
    push_neg at h
    have hp : p.1 ≠ k := fun he => h.1 he.symm
    simp only [jsGet, if_neg hp]
    exact ih (by simpa [jsKeys] using h.2)

theorem jsGet_isSome_of_mem_keys {α : Type} (m : JsObj α) (k : String)
    (h : k ∈ jsKeys m) : ∃ v, jsGet m k = some v := by
  induction m with
  | nil => simp [jsKeys] at h
  | cons p rest ih =>
    by_cases hp : p.1 = k
    · exact ⟨p.2, by simp [jsGet, hp]⟩
    · simp only [jsKeys, List.map_cons, List.mem_cons] at h
      rcases h with h | h
      · exact absurd h.symm hp
      · simpa [jsGet, hp] using ih (by simpa [jsKeys] using h)

theorem jsKeys_jsSet_of_mem {α : Type} (m : JsObj α) (k : String) (v : α)
    (h : k ∈ jsKeys m) : jsKeys (jsSet m k v) = jsKeys m := by
  induction m with
  | nil => simp [jsKeys] at h
  | cons p rest ih =>
    by_cases hp : p.1 = k
    · simp [jsSet, hp, jsKeys]
    · simp only [jsKeys, List.map_cons, List.mem_cons] at h
      rcases h with h | h
      · exact absurd h.symm hp
      · simp only [jsSet, if_neg hp, jsKeys, List.map_cons, List.cons.injEq, true_and]
        exact ih (by simpa [jsKeys] using h)

theorem jsKeys_jsSet_of_not_mem {α : Type} (m : JsObj α) (k : String) (v : α)
    (h : k ∉ jsKeys m) : jsKeys (jsSet m k v) = jsKeys m ++ [k] := by
  induction m with
  | nil => simp [jsSet, jsKeys]
  | cons p rest ih =>
    simp only [jsKeys, List.map_cons, List.mem_cons] at h
    push_neg at h
    have hp : p.1 ≠ k := fun he => h.1 he.symm
    simp only [jsSet, if_neg hp, jsKeys, List.map_cons, List.cons_append,
      List.cons.injEq, true_and]
    exact ih (by simpa [jsKeys] using h.2)

theorem mem_jsKeys_jsDelete {α : Type} (m : JsObj α) (k x : String)
    (hx : x ≠ k) : x ∈ jsKeys (jsDelete m k) ↔ x ∈ jsKeys m := by
  rw [jsKeys_jsDelete]
  simp [List.mem_filter, hx]

theorem jsKeys_jsDelete_sublist {α : Type} (m : JsObj α) (k : String) :
    List.Sublist (jsKeys (jsDelete m k)) (jsKeys m) := by
  rw [jsKeys_jsDelete]
  exact List.filter_sublist _

theorem mem_of_mem_jsSet {α : Type} (m : JsObj α) (k : String) (v : α)
    (p : String × α) (h : p ∈ jsSet m k v) : p ∈ m ∨ p = (k, v) := by
  induction m with
  | nil => simpa [jsSet] using h
  | cons q rest ih =>
    by_cases hq : q.1 = k
    · simp only [jsSet, if_pos hq, List.mem_cons] at h
      rcases h with h | h
      · exact Or.inr h
      · exact Or.inl (List.mem_cons_of_mem _ h)
    · simp only [jsSet, if_neg hq, List.mem_cons] at h
      rcases h with h | h
      · exact Or.inl (h ▸ List.mem_cons_self _ _)
      · rcases ih h with h' | h'
        · exact Or.inl (List.mem_cons_of_mem _ h')
        · exact Or.inr h'

theorem nodup_jsKeys_jsSet {α : Type} (m : JsObj α) (k : String) (v : α)
    (h : (jsKeys m).Nodup) : (jsKeys (jsSet m k v)).Nodup := by
  by_cases hk : k ∈ jsKeys m
  · rwa [jsKeys_jsSet_of_mem m k v hk]
  · rw [jsKeys_jsSet_of_not_mem m k v hk]
    simpa [List.nodup_append] using ⟨h, hk⟩

/-! ## Lemmas about the code-unit string order realising `Array.sort()` -/

theorem char_eq_of_toNat_eq {a b : Char} (h : a.toNat = b.toNat) : a = b :=
  Char.ext (UInt32.ext h)

theorem lexLe_total (a b : List Char) (h : lexLe a b = false) : lexLe b a = true := by
  induction a generalizing b with
  | nil => simp [lexLe] at h
  | cons x xs ih =>
    cases b with
    | nil => simp [lexLe]
    | cons y ys =>
      by_cases hxy : x = y
      · subst hxy
        simp only [lexLe, if_pos rfl] at h ⊢
        exact ih ys h
      · have hyx : y ≠ x := fun he => hxy he.symm
        simp only [lexLe, if_neg hxy, decide_eq_false_iff_not, Nat.not_lt] at h
        simp only [lexLe, if_neg hyx, decide_eq_true_eq]
        rcases Nat.lt_or_ge y.toNat x.toNat with hlt | hge
        · exact hlt
        · exact absurd (char_eq_of_toNat_eq (Nat.le_antisymm h hge)).symm hxy

theorem lexLe_trans (a b c : List Char) (hab : lexLe a b = true)
    (hbc : lexLe b c = true) : lexLe a c = true := by
  induction a generalizing b c with
  | nil => simp [lexLe]
  | cons x xs ih =>
    cases b with
    | nil => simp [lexLe] at hab
    | cons y ys =>
      cases c with
      | nil => simp [lexLe] at hbc
      | cons z zs =>
        by_cases hxy : x = y
        · subst hxy
          simp only [lexLe, if_pos rfl] at hab
          by_cases hxz : x = z
          · subst hxz
            simp only [lexLe, if_pos rfl] at hbc ⊢
            exact ih ys zs hab hbc
          · simp only [lexLe, if_neg hxz, decide_eq_true_eq] at hbc ⊢
            exact hbc
        · simp only [lexLe, if_neg hxy, decide_eq_true_eq] at hab
          by_cases hyz : y = z
          · subst hyz
            simp only [lexLe, if_neg hxy, decide_eq_true_eq]
            exact hab
          · simp only [lexLe, if_neg hyz, decide_eq_true_eq] at hbc
            have hxz : x.toNat < z.toNat := Nat.lt_trans hab hbc
            have : x ≠ z := fun he => absurd (congrArg Char.toNat he) (Nat.ne_of_lt hxz)
            simp only [lexLe, if_neg this, decide_eq_true_eq]
            exact hxz

theorem lexLt_of_lexLe_of_ne (a b : List Char) (hab : lexLe a b = true)
    (hne : a ≠ b) : lexLt a b = true := by
  induction a generalizing b with
  | nil =>
    cases b with
    | nil => exact absurd rfl hne
    | cons y ys => rfl
  | cons x xs ih =>
    cases b with
    | nil => simp [lexLe] at hab
    | cons y ys =>
      by_cases hxy : x = y
      · subst hxy
        simp only [lexLe, if_pos rfl] at hab
        simp only [lexLt, if_pos rfl]
        exact ih ys hab (fun he => hne (by rw [he]))
      · simp only [lexLe, if_neg hxy] at hab
        simp only [lexLt, if_neg hxy]
        exact hab

theorem strLe_total (a b : String) (h : strLe a b = false) : strLe b a = true :=
  lexLe_total a.data b.data h

theorem strLe_trans (a b c : String) (hab : strLe a b = true)
    (hbc : strLe b c = true) : strLe a c = true :=
  lexLe_trans a.data b.data c.data hab hbc

theorem strLt_of_strLe_of_ne (a b : String) (hab : strLe a b = true)
    (hne : a ≠ b) : strLt a b = true :=
  lexLt_of_lexLe_of_ne a.data b.data hab (fun he => hne (String.ext he))

/-! ## The key sort: permutation and sortedness -/

theorem insertSorted_perm (k : String) (l : List String) :
    List.Perm (insertSorted k l) (k :: l) := by
  induction l with
  | nil => simp [insertSorted]
  | cons x rest ih =>
    by_cases h : strLe k x = true
    · simp [insertSorted, h]
    · simp only [insertSorted, if_neg h]
      exact (ih.cons x).trans (List.Perm.swap k x rest)

theorem sortKeys_perm (l : List String) : List.Perm (sortKeys l) l := by
  induction l with
  | nil => simp [sortKeys]
  | cons x rest ih =>
    simp only [sortKeys, List.foldr_cons]
    exact (insertSorted_perm x _).trans (ih.cons x)

theorem mem_insertSorted (k y : String) (l : List String) :
    y ∈ insertSorted k l ↔ y = k ∨ y ∈ l := by
  constructor
  · intro h
    have := (insertSorted_perm k l).mem_iff.mp h
    simpa using this
  · intro h
    apply (insertSorted_perm k l).mem_iff.mpr
    simpa using h

theorem pairwise_insertSorted (k : String) (l : List String)
    (h : l.Pairwise (fun a b => strLe a b = true)) :
    (insertSorted k l).Pairwise (fun a b => strLe a b = true) := by
  induction l with
  | nil => simp [insertSorted]
  | cons x rest ih =>
    rcases List.pairwise_cons.mp h with ⟨hx, hrest⟩
    by_cases hk : strLe k x = true
    · simp only [insertSorted, if_pos hk]
      refine List.pairwise_cons.mpr ⟨?_, h⟩
      intro y hy
      rcases List.mem_cons.mp hy with rfl | hy
      · exact hk
      · exact strLe_trans k x y hk (hx y hy)
    · simp only [insertSorted, if_neg hk]
      refine List.pairwise_cons.mpr ⟨?_, ih hrest⟩
      intro y hy
      rcases (mem_insertSorted k y rest).mp hy with rfl | hy
      · exact strLe_total y x (Bool.eq_false_iff.mpr hk)
      · exact hx y hy

theorem sortKeys_pairwise (l : List String) :
    (sortKeys l).Pairwise (fun a b => strLe a b = true) := by
  induction l with
  | nil => simp [sortKeys]
  | cons x rest ih =>
    simp only [sortKeys, List.foldr_cons]
    exact pairwise_insertSorted x _ ih

theorem sortKeys_pairwise_strLt (l : List String) (h : l.Nodup) :
    (sortKeys l).Pairwise (fun a b => strLt a b = true) := by
  have hnd : (sortKeys l).Nodup := (sortKeys_perm l).nodup_iff.mpr h
  have hle := sortKeys_pairwise l
  have := List.Pairwise.and hle hnd
  exact this.imp (fun hab => strLt_of_strLe_of_ne _ _ hab.1 hab.2)

/-! ## Lemmas about `sortMappings` -/

theorem jsKeys_filterMap_of_all_some {α : Type} (m : JsObj α) (l : List String)
    (h : ∀ k ∈ l, k ∈ jsKeys m) :
    jsKeys (l.filterMap (fun k => (jsGet m k).map (fun v => (k, v)))) = l := by
  induction l with
  | nil => rfl
  | cons x rest ih =>
    rcases jsGet_isSome_of_mem_keys m x (h x (List.mem_cons_self x rest)) with ⟨v, hv⟩
    simp only [List.filterMap_cons, hv, Option.map_some', jsKeys, List.map_cons]
    rw [show ((rest.filterMap
      (fun k => (jsGet m k).map (fun v => (k, v)))).map Prod.fst : List String) =
        jsKeys (rest.filterMap (fun k => (jsGet m k).map (fun v => (k, v)))) from rfl,
      ih (fun k hk => h k (List.mem_cons_of_mem x hk))]

theorem jsKeys_sortMappings {α : Type} (m : JsObj α) :
    jsKeys (sortMappings m) = sortKeys (jsKeys m) := by
  unfold sortMappings
  exact jsKeys_filterMap_of_all_some m _ (fun k hk => (sortKeys_perm (jsKeys m)).mem_iff.mp hk)

theorem jsGet_filterMap_nodup {α : Type} (m : JsObj α) (l : List String) (k : String)
    (hnd : l.Nodup) (h : ∀ x ∈ l, x ∈ jsKeys m) :
    jsGet (l.filterMap (fun x => (jsGet m x).map (fun v => (x, v)))) k =
      if k ∈ l then jsGet m k else none := by
  induction l with
  | nil => simp [jsGet]
  | cons x rest ih =>
    rcases jsGet_isSome_of_mem_keys m x (h x (List.mem_cons_self x rest)) with ⟨v, hv⟩
    rcases List.nodup_cons.mp hnd with ⟨hx, hrest⟩
    simp only [List.filterMap_cons, hv, Option.map_some']
    by_cases hk : x = k
    · subst hk
      simp only [jsGet, if_pos rfl, List.mem_cons, true_or, if_true]
      exact hv.symm
    · simp only [jsGet, if_neg hk, List.mem_cons]
      rw [ih hrest (fun y hy => h y (List.mem_cons_of_mem x hy))]
      have : ¬ k = x := fun he => hk he.symm
      simp [this]

theorem jsGet_sortMappings {α : Type} (m : JsObj α) (k : String)
    (hnd : (jsKeys m).Nodup) : jsGet (sortMappings m) k = jsGet m k := by
  unfold sortMappings
  rw [jsGet_filterMap_nodup m _ k ((sortKeys_perm (jsKeys m)).nodup_iff.mpr hnd)
    (fun x hx => (sortKeys_perm (jsKeys m)).mem_iff.mp hx)]
  by_cases hk : k ∈ sortKeys (jsKeys m)
  · simp [hk]
  · have : k ∉ jsKeys m := fun hm => hk ((sortKeys_perm (jsKeys m)).mem_iff.mpr hm)
    simp [hk, jsGet_eq_none_of_not_mem_keys m k this]

/-! ## Lemmas about the override merge -/

theorem applyOverride_jsGet_ne (m : JsObj FeatureRecord) (fid fid' : String)
    (ov : Override) (h : fid' ≠ fid) :
    jsGet (applyOverride m fid' ov) fid = jsGet m fid := by
  unfold applyOverride
  by_cases he : ov.exclude
  · simp only [he, if_true]
    exact jsGet_jsDelete_ne m fid fid' h
  · simp only [he, Bool.false_eq_true, if_false]
    cases hf : ov.fallbacks with
    | none => rfl
    | some fbs =>
      by_cases hr : ov.replace
      · simp only [hr, if_true]
        exact jsGet_jsSet_ne m fid fid' _ h
      · simp only [hr, Bool.false_eq_true, if_false]
        cases hg : jsGet m fid' with
        | some r => exact jsGet_jsSet_ne m fid fid' _ h
        | none => exact jsGet_jsSet_ne m fid fid' _ h

theorem mergeOverrides_jsGet_not_mem (m : JsObj FeatureRecord)
    (ovs : List (String × Override)) (fid : String)
    (h : fid ∉ ovs.map Prod.fst) :
    jsGet (mergeOverrides m ovs) fid = jsGet m fid := by
  induction ovs generalizing m with
  | nil => rfl
  | cons p rest ih =>
    simp only [List.map_cons, List.mem_cons] at h
    push_neg at h
    simp only [mergeOverrides, List.foldl_cons]
    rw [show (List.foldl (fun acc p => applyOverride acc p.1 p.2) (applyOverride m p.1 p.2) rest :
      JsObj FeatureRecord) = mergeOverrides (applyOverride m p.1 p.2) rest from rfl]
    rw [ih _ h.2, applyOverride_jsGet_ne m fid p.1 p.2 (fun he => h.1 he.symm)]

theorem mergeOverrides_jsGet_of_mem (m : JsObj FeatureRecord)
    (ovs : List (String × Override)) (fid : String) (ov : Override)
    (hmem : (fid, ov) ∈ ovs) (hnd : (ovs.map Prod.fst).Nodup) :
    ∃ m', jsGet m' fid = jsGet m fid ∧
      jsGet (mergeOverrides m ovs) fid = jsGet (applyOverride m' fid ov) fid := by
  rcases List.append_of_mem hmem with ⟨l₁, l₂, rfl⟩
  have hmap : (l₁ ++ (fid, ov) :: l₂).map Prod.fst
      = l₁.map Prod.fst ++ fid :: l₂.map Prod.fst := by
    simp
  rw [hmap] at hnd
  rcases List.nodup_append.mp hnd with ⟨hnd₁, hnd₂, hdisj⟩
  have hfid₁ : fid ∉ l₁.map Prod.fst := by
    intro hx
    exact hdisj hx (List.mem_cons_self _ _)
  have hfid₂ : fid ∉ l₂.map Prod.fst := (List.nodup_cons.mp hnd₂).1
  refine ⟨mergeOverrides m l₁, mergeOverrides_jsGet_not_mem m l₁ fid hfid₁, ?_⟩
  unfold mergeOverrides
  rw [List.foldl_append, List.foldl_cons]
  exact mergeOverrides_jsGet_not_mem _ l₂ fid hfid₂

theorem applyOverride_keys_behaviour (m : JsObj FeatureRecord) (fid : String)
    (ov : Override)
    (h : ov.exclude = true ∨ ov.fallbacks = none ∨ fid ∈ jsKeys m) :
    List.Sublist (jsKeys (applyOverride m fid ov)) (jsKeys m) ∧
      (∀ x ∈ jsKeys m, x ≠ fid → x ∈ jsKeys (applyOverride m fid ov)) := by
  unfold applyOverride
  by_cases he : ov.exclude
  · simp only [he, if_true]
    exact ⟨jsKeys_jsDelete_sublist m fid,
      fun x hx hne => (mem_jsKeys_jsDelete m fid x hne).mpr hx⟩
  · simp only [he, Bool.false_eq_true, if_false]
    cases hf : ov.fallbacks with
    | none => exact ⟨List.Sublist.refl _, fun x hx _ => hx⟩
    | some fbs =>
      have hmem : fid ∈ jsKeys m := by
        rcases h with h | h | h
        · exact absurd h he
        · rw [hf] at h; exact absurd h (by simp)
        · exact h
      by_cases hr : ov.replace
      · simp only [hr, if_true, jsKeys_jsSet_of_mem m fid _ hmem]
        exact ⟨List.Sublist.refl _, fun x hx _ => hx⟩
      · simp only [hr, Bool.false_eq_true, if_false]
        rcases jsGet_isSome_of_mem_keys m fid hmem with ⟨r, hrv⟩
        simp only [hrv, jsKeys_jsSet_of_mem m fid _ hmem]
        exact ⟨List.Sublist.refl _, fun x hx _ => hx⟩

theorem mergeOverrides_keys_sublist (ovs : List (String × Override))
    (m : JsObj FeatureRecord)
    (hnd : (ovs.map Prod.fst).Nodup)
    (H : ∀ p ∈ ovs, p.2.exclude = true ∨ p.2.fallbacks = none ∨ p.1 ∈ jsKeys m) :
    List.Sublist (jsKeys (mergeOverrides m ovs)) (jsKeys m) := by
  induction ovs generalizing m with
  | nil => exact List.Sublist.refl _
  | cons p rest ih =>
    rw [List.map_cons] at hnd
    rcases List.nodup_cons.mp hnd with ⟨hp, hrest⟩
    have hstep := applyOverride_keys_behaviour m p.1 p.2
      (H p (List.mem_cons_self _ _))
    have hH' : ∀ q ∈ rest, q.2.exclude = true ∨ q.2.fallbacks = none ∨
        q.1 ∈ jsKeys (applyOverride m p.1 p.2) := by
      intro q hq
      rcases H q (List.mem_cons_of_mem p hq) with h | h | h
      · exact Or.inl h
      · exact Or.inr (Or.inl h)
      · refine Or.inr (Or.inr (hstep.2 q.1 h ?_))
        intro he
        exact hp (he ▸ List.mem_map_of_mem Prod.fst hq)
    have : mergeOverrides m (p :: rest) = mergeOverrides (applyOverride m p.1 p.2) rest := rfl
    rw [this]
    exact (ih _ hrest hH').trans hstep.1

/-! ## Lemmas about `slugToPath` -/

theorem toNat_ofNat_of_valid {n : Nat} (h : n.isValidChar) :
    (Char.ofNat n).toNat = n := by
  rw [Char.ofNat, dif_pos h]
  rfl

theorem toLower_toLower (c : Char) :
    Char.toLower (Char.toLower c) = Char.toLower c := by
  by_cases h : (c.toNat ≥ 65 ∧ c.toNat ≤ 90)
  · have hvalid : (c.toNat + 32).isValidChar := Or.inl (by omega)
    have h2 : (Char.toLower c).toNat = c.toNat + 32 := by
      rw [Char.toLower, if_pos h]
      exact toNat_ofNat_of_valid hvalid
    rw [Char.toLower, if_neg (by omega)]
  · have h1 : Char.toLower c = c := by
      rw [Char.toLower, if_neg h]
    rw [h1, h1]

theorem mem_replaceChar {p : Char} {repl s : List Char} {c : Char}
    (h : c ∈ replaceChar p repl s) : c ∈ repl ∨ (c ∈ s ∧ c ≠ p) := by
  induction s with
  | nil => simp [replaceChar] at h
  | cons x rest ih =>
    by_cases hx : x = p
    · simp only [replaceChar, if_pos hx, List.mem_append] at h
      rcases h with h | h
      · exact Or.inl h
      · rcases ih h with h' | h'
        · exact Or.inl h'
        · exact Or.inr ⟨List.mem_cons_of_mem x h'.1, h'.2⟩
    · simp only [replaceChar, if_neg hx, List.mem_cons] at h
      rcases h with rfl | h
      · exact Or.inr ⟨List.mem_cons_self _ _, hx⟩
      · rcases ih h with h' | h'
        · exact Or.inl h'
        · exact Or.inr ⟨List.mem_cons_of_mem x h'.1, h'.2⟩

theorem mem_replaceDColon {repl s : List Char} {c : Char}
    (h : c ∈ replaceDColon repl s) : c ∈ repl ∨ c ∈ s := by
  induction s using replaceDColon.induct repl with
  | case1 => simp [replaceDColon] at h
  | case2 x => simpa [replaceDColon] using Or.inr h
  | case3 c₁ c₂ rest hc ih =>
    rw [replaceDColon, if_pos hc] at h
    rcases List.mem_append.mp h with h' | h'
    · exact Or.inl h'
    · rcases ih h' with h'' | h''
      · exact Or.inl h''
      · exact Or.inr (List.mem_cons_of_mem _ (List.mem_cons_of_mem _ h''))
  | case4 c₁ c₂ rest hc ih =>
    rw [replaceDColon, if_neg hc] at h
    rcases List.mem_cons.mp h with rfl | h'
    · exact Or.inr (List.mem_cons_self _ _)
    · rcases ih h' with h'' | h''
      · exact Or.inl h''
      · exact Or.inr (List.mem_cons_of_mem _ h'')

theorem replaceChar_eq_self {p : Char} {repl s : List Char}
    (h : p ∉ s) : replaceChar p repl s = s := by
  induction s with
  | nil => rfl
  | cons x rest ih =>
    have hx : x ≠ p := fun he => h (he ▸ List.mem_cons_self _ _)
    rw [replaceChar, if_neg hx, ih (fun hm => h (List.mem_cons_of_mem x hm))]

theorem replaceDColon_eq_self {repl s : List Char}
    (h : ':' ∉ s) : replaceDColon repl s = s := by
  induction s using replaceDColon.induct repl with
  | case1 => rfl
  | case2 x => rfl
  | case3 c₁ c₂ rest hc ih =>
    exact absurd (hc.1 ▸ List.mem_cons_self c₁ (c₂ :: rest)) h
  | case4 c₁ c₂ rest hc ih =>
    rw [replaceDColon, if_neg hc, ih (fun hm => h (List.mem_cons_of_mem c₁ hm))]

theorem not_mem_replaceChar_self {p : Char} {repl s : List Char}
    (hrepl : p ∉ repl) : p ∉ replaceChar p repl s := by
  intro h
  rcases mem_replaceChar h with h' | h'
  · exact hrepl h'
  · exact h'.2 rfl

theorem mem_slugToPath {s : List Char} {c : Char} (h : c ∈ slugToPath s) :
    c ∈ starRepl ∨ c ∈ colonRepl ∨ c ∈ dcolonRepl ∨ c ∈ s.map Char.toLower := by
  unfold slugToPath at h
  rcases mem_replaceChar h with h' | h'
  · exact Or.inl h'
  · rcases mem_replaceChar h'.1 with h'' | h''
    · exact Or.inr (Or.inl h'')
    · rcases mem_replaceDColon h''.1 with h''' | h'''
      · exact Or.inr (Or.inr (Or.inl h'''))
      · exact Or.inr (Or.inr (Or.inr h'''))

theorem colon_not_mem_slugToPath (s : List Char) : ':' ∉ slugToPath s := by
  unfold slugToPath
  intro h
  rcases mem_replaceChar h with h' | h'
  · revert h'
    decide
  · exact not_mem_replaceChar_self (by decide) h'.1

theorem star_not_mem_slugToPath (s : List Char) : '*' ∉ slugToPath s := by
  unfold slugToPath
  exact not_mem_replaceChar_self (by decide)

theorem toLower_fixes_repls :
    (∀ c ∈ starRepl, Char.toLower c = c) ∧ (∀ c ∈ colonRepl, Char.toLower c = c) ∧
      (∀ c ∈ dcolonRepl, Char.toLower c = c) := by
  refine ⟨?_, ?_, ?_⟩ <;> decide

theorem toLower_fixes_slugToPath {s : List Char} {c : Char}
    (h : c ∈ slugToPath s) : Char.toLower c = c := by
  rcases mem_slugToPath h with h' | h' | h' | h'
  · exact toLower_fixes_repls.1 c h'
  · exact toLower_fixes_repls.2.1 c h'
  · exact toLower_fixes_repls.2.2 c h'
  · rcases List.mem_map.mp h' with ⟨a, _, rfl⟩
    exact toLower_toLower a

/-! ## Lemmas about `extractNpmPackage` -/

theorem takeWhile_append_stop (p : Char → Bool) (xs ys : List Char) (y : Char)
    (hxs : ∀ c ∈ xs, p c = true) (hy : p y = false) :
    (xs ++ y :: ys).takeWhile p = xs := by
  induction xs with
  | nil => simp [List.takeWhile, hy]
  | cons c cs ih =>
    simp only [List.cons_append, List.takeWhile]
    rw [hxs c (List.mem_cons_self _ _)]
    simp only [List.cons.injEq, true_and]
    exact ih (fun c hc => hxs c (List.mem_cons_of_mem _ hc))

theorem matchPkgName_not_amp (c : Char) (rest : List Char) (hc : c ≠ '@') :
    matchPkgName (c :: rest) =
      (if (takeSeg (c :: rest)).isEmpty then none
       else some (takeSeg (c :: rest) ++
         optSecondSeg ((c :: rest).drop (takeSeg (c :: rest)).length))) := by
  rw [matchPkgName.eq_def]
  split
  · rename_i rest' heq
    injection heq with h1 _
    exact absurd h1 hc
  · rfl

theorem matchPkgName_isSome_iff (s : List Char) :
    (matchPkgName s).isSome = true ↔ nameStart s = true := by
  cases s with
  | nil => simp [matchPkgName, nameStart, takeSeg]
  | cons c rest =>
    by_cases hc : c = '@'
    · subst hc
      have h1 : nameStart ('@' :: rest) = true := rfl
      simp only [matchPkgName, h1, iff_true]
      split <;> simp
    · rw [matchPkgName_not_amp c rest hc]
      have hns : nameStart (c :: rest) = segChar c := rfl
      by_cases hsc : segChar c = true
      · have h2 : takeSeg (c :: rest) = c :: rest.takeWhile segChar := by
          simp [takeSeg, List.takeWhile, hsc]
        simp [h2, hns, hsc]
      · have hscf : segChar c = false := by simpa using hsc
        have h2 : takeSeg (c :: rest) = [] := by
          simp [takeSeg, List.takeWhile, hscf]
        simp [h2, hns, hscf]

theorem optSecondSeg_of_run (b : List Char) (tail : List Char) (t : Char)
    (hb : b ≠ []) (hbseg : ∀ c ∈ b, segChar c = true) (ht : segChar t = false) :
    optSecondSeg ('/' :: (b ++ t :: tail)) = '/' :: b := by
  have : takeSeg (b ++ t :: tail) = b :=
    takeWhile_append_stop segChar b tail t hbseg ht
  simp only [optSecondSeg, this]
  rw [if_neg (by simpa using hb)]

theorem matchPkgName_two_segs (a b : List Char) (ha : a ≠ [])
    (haseg : ∀ c ∈ a, segChar c = true) (hb : b ≠ [])
    (hbseg : ∀ c ∈ b, segChar c = true) :
    matchPkgName (a ++ '/' :: (b ++ ['/'])) = some (a ++ '/' :: b) := by
  have hslash : segChar '/' = false := by decide
  cases a with
  | nil => exact absurd rfl ha
  | cons c a' =>
    simp only [List.cons_append]
    have ha' : ∀ x ∈ a', segChar x = true :=
      fun x hx => haseg x (List.mem_cons_of_mem _ hx)
    have htake : takeSeg (a' ++ '/' :: (b ++ ['/'])) = a' :=
      takeWhile_append_stop segChar a' (b ++ ['/']) '/' ha' hslash
    have hdrop : (a' ++ '/' :: (b ++ ['/'])).drop a'.length = '/' :: (b ++ ['/']) :=
      List.drop_left a' _
    have hopt : optSecondSeg ('/' :: (b ++ ['/'])) = '/' :: b :=
      optSecondSeg_of_run b [] '/' hb hbseg hslash
    by_cases hc : c = '@'
    · subst hc
      cases a' with
      | nil =>
        have htake0 : takeSeg ('/' :: (b ++ ['/'])) = [] := by
          simp [takeSeg, List.takeWhile, hslash]
        simp only [List.nil_append, matchPkgName, htake0, List.isEmpty_nil, if_true, hopt]
      | cons d a'' =>
        simp only [matchPkgName, htake]
        rw [if_neg (by simp), hdrop, hopt]
    · rw [matchPkgName_not_amp c _ hc]
      have htakec : takeSeg (c :: (a' ++ '/' :: (b ++ ['/']))) = c :: a' := by
        have h := takeWhile_append_stop segChar (c :: a') (b ++ ['/']) '/' haseg hslash
        simp only [List.cons_append] at h
        exact h
      have hdropc : ((c :: (a' ++ '/' :: (b ++ ['/'])))).drop (c :: a').length
          = '/' :: (b ++ ['/']) := by
        have h := List.drop_left (c :: a') ('/' :: (b ++ ['/']))
        simp only [List.cons_append] at h
        exact h
      rw [htakec, if_neg (by simp), hdropc, hopt]
      simp

theorem npmLit_isPrefixOf_append (s : List Char) :
    npmLit.isPrefixOf (npmLit ++ s) = true :=
  List.isPrefixOf_iff_prefix.mpr (List.prefix_append npmLit s)

theorem extractNpmPackage_cons (c : Char) (rest : List Char) :
    extractNpmPackage (c :: rest) =
      (if npmLit.isPrefixOf (c :: rest) then
        match matchPkgName ((c :: rest).drop npmLit.length) with
        | some name => some name
        | none => extractNpmPackage rest
       else extractNpmPackage rest) := by
  rw [extractNpmPackage.eq_def]

theorem extractNpmPackage_lit (s : List Char) (name : List Char)
    (h : matchPkgName s = some name) :
    extractNpmPackage (npmLit ++ s) = some name := by
  have hsplit : npmLit ++ s = 'n' :: ("pmjs.com/package/".data ++ s) := rfl
  rw [hsplit, extractNpmPackage_cons, ← hsplit, if_pos (npmLit_isPrefixOf_append s),
    List.drop_left npmLit s, h]

theorem extractNpmPackage_isSome_iff (url : List Char) :
    (extractNpmPackage url).isSome = true ↔
      ∃ i, npmLit.isPrefixOf (url.drop i) = true ∧
        nameStart (url.drop (i + npmLit.length)) = true := by
  induction url with
  | nil =>
    simp only [extractNpmPackage, Option.isSome_none, Bool.false_eq_true, false_iff]
    rintro ⟨i, hpre, _⟩
    rw [List.drop_nil] at hpre
    revert hpre
    decide
  | cons c rest ih =>
    rw [extractNpmPackage_cons]
    by_cases hpre : npmLit.isPrefixOf (c :: rest) = true
    · rw [if_pos hpre]
      cases hm : matchPkgName ((c :: rest).drop npmLit.length) with
      | some name =>
        simp only [Option.isSome_some, true_iff]
        refine ⟨0, by simpa using hpre, ?_⟩
        have := (matchPkgName_isSome_iff ((c :: rest).drop npmLit.length)).mp
          (by rw [hm]; rfl)
        simpa using this
      | none =>
        rw [ih]
        constructor
        · rintro ⟨j, hp, hn⟩
          exact ⟨j + 1, by simpa [List.drop_succ_cons] using hp,
            by
              have : (c :: rest).drop (j + 1 + npmLit.length) = rest.drop (j + npmLit.length) := by
                rw [show j + 1 + npmLit.length = (j + npmLit.length) + 1 by omega]
                exact List.drop_succ_cons
              rw [this]
              exact hn⟩
        · rintro ⟨i, hp, hn⟩
          cases i with
          | zero =>
            exfalso
            have hfalse := (matchPkgName_isSome_iff ((c :: rest).drop npmLit.length)).mpr
              (by simpa using hn)
            rw [hm] at hfalse
            simp at hfalse
          | succ j =>
            refine ⟨j, by simpa [List.drop_succ_cons] using hp, ?_⟩
            have : (c :: rest).drop (j + 1 + npmLit.length) = rest.drop (j + npmLit.length) := by
              rw [show j + 1 + npmLit.length = (j + npmLit.length) + 1 by omega]
              exact List.drop_succ_cons
            rw [this] at hn
            exact hn
    · rw [if_neg hpre, ih]
      constructor
      · rintro ⟨j, hp, hn⟩
        exact ⟨j + 1, by simpa [List.drop_succ_cons] using hp,
          by
            have : (c :: rest).drop (j + 1 + npmLit.length) = rest.drop (j + npmLit.length) := by
              rw [show j + 1 + npmLit.length = (j + npmLit.length) + 1 by omega]
              exact List.drop_succ_cons
            rw [this]
            exact hn⟩
      · rintro ⟨i, hp, hn⟩
        cases i with
        | zero => exact absurd (by simpa using hp) hpre
        | succ j =>
          refine ⟨j, by simpa [List.drop_succ_cons] using hp, ?_⟩
          have : (c :: rest).drop (j + 1 + npmLit.length) = rest.drop (j + npmLit.length) := by
            rw [show j + 1 + npmLit.length = (j + npmLit.length) + 1 by omega]
            exact List.drop_succ_cons
          rw [this] at hn
          exact hn

/-! ## Lemmas about url deduplication (`uniqueByUrl`) -/

theorem urlMapFold_invariant (links : List Link) (acc : JsObj Link)
    (hnd : (jsKeys acc).Nodup) (hurl : ∀ p ∈ acc, p.2.url = p.1) :
    (jsKeys (links.foldl (fun m l => jsSet m l.url l) acc)).Nodup ∧
      ∀ p ∈ links.foldl (fun m l => jsSet m l.url l) acc, p.2.url = p.1 := by
  induction links generalizing acc with
  | nil => exact ⟨hnd, hurl⟩
  | cons l rest ih =>
    simp only [List.foldl_cons]
    refine ih (jsSet acc l.url l) (nodup_jsKeys_jsSet acc l.url l hnd) ?_
    intro p hp
    rcases mem_of_mem_jsSet acc l.url l p hp with h | h
    · exact hurl p h
    · rw [h]

theorem map_url_dedupedFallbacks (links : List Link) :
    (dedupedFallbacks links).map Fallback.url =
      jsKeys (links.foldl (fun m l => jsSet m l.url l) []) := by
  unfold dedupedFallbacks uniqueByUrl jsKeys
  rw [List.map_map, List.map_map]
  exact List.map_congr_left
    (fun p hp => (urlMapFold_invariant links [] (by simp [jsKeys]) (by simp)).2 p hp)

/-! ## Lemmas about the npm-stats fold -/

theorem jsGet_statsFold_of_some (fetchRes : String → Option Int) (now : Int)
    (l : List String) (pkg : String) (v : StatsEntry) (stats : JsObj StatsEntry)
    (hf : fetchRes pkg = none) (hs : jsGet stats pkg = some v) :
    jsGet (l.foldl (fun stats pkg =>
      match fetchRes pkg with
      | some d => jsSet stats pkg ⟨some d, some now⟩
      | none =>
        match jsGet stats pkg with
        | none => jsSet stats pkg ⟨none, some now⟩
        | some _ => stats) stats) pkg = some v := by
  induction l generalizing stats with
  | nil => exact hs
  | cons q rest ih =>
    simp only [List.foldl_cons]
    by_cases hq : q = pkg
    · subst hq
      rw [hf, hs]
      exact ih stats hs
    · apply ih
      cases hfq : fetchRes q with
      | some d =>
        rw [jsGet_jsSet_ne stats pkg q _ hq]
        exact hs
      | none =>
        cases hgq : jsGet stats q with
        | none =>
          rw [jsGet_jsSet_ne stats pkg q _ hq]
          exact hs
        | some w => exact hs

theorem jsGet_statsFold_of_none (fetchRes : String → Option Int) (now : Int)
    (l : List String) (pkg : String) (stats : JsObj StatsEntry)
    (hmem : pkg ∈ l) (hf : fetchRes pkg = none) (hs : jsGet stats pkg = none) :
    jsGet (l.foldl (fun stats pkg =>
      match fetchRes pkg with
      | some d => jsSet stats pkg ⟨some d, some now⟩
      | none =>
        match jsGet stats pkg with
        | none => jsSet stats pkg ⟨none, some now⟩
        | some _ => stats) stats) pkg = some ⟨none, some now⟩ := by
  induction l generalizing stats with
  | nil => simp at hmem
  | cons q rest ih =>
    simp only [List.foldl_cons]
    by_cases hq : q = pkg
    · subst hq
      rw [hf, hs]
      exact jsGet_statsFold_of_some fetchRes now rest q _ _ hf
        (jsGet_jsSet_self stats q ⟨none, some now⟩)
    · have hmem' : pkg ∈ rest := by
        rcases List.mem_cons.mp hmem with h | h
        · exact absurd h.symm hq
        · exact h
      refine ih _ hmem' ?_
      cases hfq : fetchRes q with
      | some d =>
        rw [jsGet_jsSet_ne stats pkg q _ hq]
        exact hs
      | none =>
        cases hgq : jsGet stats q with
        | none =>
          rw [jsGet_jsSet_ne stats pkg q _ hq]
          exact hs
        | some w => exact hs

/-! ## The claims -/

/-- C1: for every feature id present in the override map with `exclude` set,
the merge removes that feature id from the final merged mapping entirely,
regardless of the auto-discovered content and of any `replace` flag or
`fallbacks` list in the same entry (the override `ov` is arbitrary apart
from its `exclude` field). -/
theorem claim_C1_exclude_removes (auto : JsObj FeatureRecord)
    (ovs : List (String × Override)) (fid : String) (ov : Override)
    (hmem : (fid, ov) ∈ ovs) (hnd : (ovs.map Prod.fst).Nodup)
    (hexcl : ov.exclude = true) :
    jsGet (finalMappings auto ovs) fid = none := by
  rcases mergeOverrides_jsGet_of_mem (sortMappings auto) ovs fid ov hmem hnd with
    ⟨m', hm', hres⟩
  rw [show finalMappings auto ovs = mergeOverrides (sortMappings auto) ovs from rfl,
    hres]
  unfold applyOverride
  simp only [hexcl, if_true]
  exact jsGet_jsDelete_self m' fid

/-- Witness for C1 at a concrete input: the override carries `exclude`,
`replace` and a nonempty `fallbacks` list, yet the feature is gone. -/
theorem claim_C1_witness :
    jsGet (finalMappings [("f", FeatureRecord.mk [fbA])]
      [("f", Override.mk true true (some [fbB]))]) "f" = none :=
  claim_C1_exclude_removes [("f", FeatureRecord.mk [fbA])]
    [("f", Override.mk true true (some [fbB]))] "f"
    (Override.mk true true (some [fbB])) (by decide) (by decide) rfl

/-- C2: for every feature id whose override has `replace` set, no `exclude`,
and a `fallbacks` list `F`, the final mapping's fallback list for that
feature is exactly `F`, even when `F` is empty. -/
theorem claim_C2_replace_exact (auto : JsObj FeatureRecord)
    (ovs : List (String × Override)) (fid : String) (ov : Override)
    (F : List Fallback) (hmem : (fid, ov) ∈ ovs)
    (hnd : (ovs.map Prod.fst).Nodup) (hexcl : ov.exclude = false)
    (hrepl : ov.replace = true) (hfb : ov.fallbacks = some F) :
    jsGet (finalMappings auto ovs) fid = some (FeatureRecord.mk F) := by
  rcases mergeOverrides_jsGet_of_mem (sortMappings auto) ovs fid ov hmem hnd with
    ⟨m', hm', hres⟩
  rw [show finalMappings auto ovs = mergeOverrides (sortMappings auto) ovs from rfl,
    hres]
  unfold applyOverride
  simp only [hexcl, Bool.false_eq_true, if_false, hfb, hrepl, if_true]
  exact jsGet_jsSet_self m' fid (FeatureRecord.mk F)

/-- Witness for C2 at a concrete input with `F = []`: the auto-discovered
fallback is discarded and the empty list is kept. -/
theorem claim_C2_witness :
    jsGet (finalMappings [("g", FeatureRecord.mk [fbA])]
      [("g", Override.mk false true (some []))]) "g"
      = some (FeatureRecord.mk []) :=
  claim_C2_replace_exact [("g", FeatureRecord.mk [fbA])]
    [("g", Override.mk false true (some []))] "g"
    (Override.mk false true (some [])) [] (by decide) (by decide) rfl rfl rfl

/-- C3: for every feature id whose override has neither flag but a
`fallbacks` list `F`: when auto-discovery produced `A` the final list is
`A ++ F` (no deduplication), and when it produced nothing a new entry with
exactly `F` is created. -/
theorem claim_C3_augment (auto : JsObj FeatureRecord)
    (ovs : List (String × Override)) (fid : String) (ov : Override)
    (F : List Fallback) (hauto : (jsKeys auto).Nodup)
    (hmem : (fid, ov) ∈ ovs) (hnd : (ovs.map Prod.fst).Nodup)
    (hexcl : ov.exclude = false) (hrepl : ov.replace = false)
    (hfb : ov.fallbacks = some F) :
    (∀ A, jsGet auto fid = some (FeatureRecord.mk A) →
      jsGet (finalMappings auto ovs) fid = some (FeatureRecord.mk (A ++ F))) ∧
    (jsGet auto fid = none →
      jsGet (finalMappings auto ovs) fid = some (FeatureRecord.mk F)) := by
  rcases mergeOverrides_jsGet_of_mem (sortMappings auto) ovs fid ov hmem hnd with
    ⟨m', hm', hres⟩
  have hm'' : jsGet m' fid = jsGet auto fid :=
    hm'.trans (jsGet_sortMappings auto fid hauto)
  constructor
  · intro A hA
    rw [show finalMappings auto ovs = mergeOverrides (sortMappings auto) ovs from rfl,
      hres]
    unfold applyOverride
    simp only [hexcl, Bool.false_eq_true, if_false, hfb, hrepl]
    rw [hm''.trans hA]
    exact jsGet_jsSet_self m' fid (FeatureRecord.mk (A ++ F))
  · intro hA
    rw [show finalMappings auto ovs = mergeOverrides (sortMappings auto) ovs from rfl,
      hres]
    unfold applyOverride
    simp only [hexcl, Bool.false_eq_true, if_false, hfb, hrepl]
    rw [hm''.trans hA]
    exact jsGet_jsSet_self m' fid (FeatureRecord.mk F)

/-- Witness for C3 at concrete inputs: one feature with an existing
auto-discovered list (result is the concatenation) and one without (a new
entry holding exactly the override list). -/
theorem claim_C3_witness :
    jsGet (finalMappings [("h", FeatureRecord.mk [fbA])]
        [("h", Override.mk false false (some [fbB]))]) "h"
      = some (FeatureRecord.mk [fbA, fbB]) ∧
    jsGet (finalMappings [] [("i", Override.mk false false (some [fbB]))]) "i"
      = some (FeatureRecord.mk [fbB]) :=
  ⟨(claim_C3_augment [("h", FeatureRecord.mk [fbA])]
      [("h", Override.mk false false (some [fbB]))] "h"
      (Override.mk false false (some [fbB])) [fbB] (by decide) (by decide)
      (by decide) rfl rfl rfl).1 [fbA] rfl,
   (claim_C3_augment [] [("i", Override.mk false false (some [fbB]))] "i"
      (Override.mk false false (some [fbB])) [fbB] (by decide) (by decide)
      (by decide) rfl rfl rfl).2 rfl⟩

/-- Counterexample to C4: the key sort happens before the override merge, so
an override that creates a feature entry not produced by auto-discovery
appends its key at the end; here the final key order is `["b", "a"]`. -/
theorem claim_C4_cex :
    ¬ List.Pairwise (fun a b => strLt a b = true)
      (jsKeys (finalMappings [("b", FeatureRecord.mk [])]
        [("a", Override.mk false false (some []))])) := by
  decide

/-- C4 (amended): the final mapping keys are in ascending code-unit
lexicographic order provided every override entry that carries a `fallbacks`
list (and is not an exclusion) refers to an auto-discovered feature id; an
override creating a brand-new entry instead appends its key at the end of
the mapping, breaking the global sort. -/
theorem claim_C4_sorted_amended (auto : JsObj FeatureRecord)
    (ovs : List (String × Override)) (hauto : (jsKeys auto).Nodup)
    (hnd : (ovs.map Prod.fst).Nodup)
    (H : ∀ p ∈ ovs, p.2.exclude = true ∨ p.2.fallbacks = none ∨
      p.1 ∈ jsKeys (sortMappings auto)) :
    List.Pairwise (fun a b => strLt a b = true)
      (jsKeys (finalMappings auto ovs)) := by
  have hsorted : List.Pairwise (fun a b => strLt a b = true)
      (jsKeys (sortMappings auto)) := by
    rw [jsKeys_sortMappings auto]
    exact sortKeys_pairwise_strLt _ hauto
  exact hsorted.sublist (mergeOverrides_keys_sublist ovs (sortMappings auto) hnd H)

/-- Witness for the amended C4 at a concrete input whose override augments
an auto-discovered feature. -/
theorem claim_C4_witness :
    List.Pairwise (fun a b => strLt a b = true)
      (jsKeys (finalMappings [("b", FeatureRecord.mk [fbA])]
        [("b", Override.mk false false (some [fbB]))])) :=
  claim_C4_sorted_amended [("b", FeatureRecord.mk [fbA])]
    [("b", Override.mk false false (some [fbB]))] (by decide) (by decide)
    (by decide)

/-- C5: the fallback list produced by the auto-discovery stage for one
feature never contains two entries with the same url. -/
theorem claim_C5_dedup (links : List Link) :
    ((dedupedFallbacks links).map Fallback.url).Nodup := by
  rw [map_url_dedupedFallbacks]
  exact (urlMapFold_invariant links [] (by simp [jsKeys]) (fun p hp => by simp at hp)).1

/-- Counterexample to C6: a malformed override file is caught by the very
same `try/catch` as a missing file and silently degrades to the empty
override set — the run does not abort, and the two cases are conflated. -/
theorem claim_C6_cex :
    loadOverrides OverridesSource.malformed = loadOverrides OverridesSource.missing ∧
      loadOverrides OverridesSource.malformed = [] :=
  ⟨rfl, rfl⟩

/-- C6 (amended): both a missing and a malformed override file yield the
empty override set and the pipeline continues; `loadOverrides` is total, so
neither case is fatal. -/
theorem claim_C6_amended :
    loadOverrides OverridesSource.missing = [] ∧
      loadOverrides OverridesSource.malformed = [] ∧
      ∀ entries, loadOverrides (OverridesSource.parsed entries)
        = entries.filter (fun p => !(p.1.startsWith "_")) :=
  ⟨rfl, rfl, fun _ => rfl⟩

/-- C7: the slug-to-path conversion is idempotent for every slug, and the
three escaped token classes map to pairwise distinct paths on the
specification's example shape. -/
theorem claim_C7_slugToPath :
    (∀ s : List Char, slugToPath (slugToPath s) = slugToPath s) ∧
    slugToPath "Set::difference".data ≠ slugToPath "Set:difference".data ∧
    slugToPath "Set:difference".data ≠ slugToPath "Set*difference".data ∧
    slugToPath "Set::difference".data ≠ slugToPath "Set*difference".data := by
  refine ⟨?_, by decide, by decide, by decide⟩
  intro s
  have hmap : (slugToPath s).map Char.toLower = slugToPath s := by
    have h1 : (slugToPath s).map Char.toLower = (slugToPath s).map (fun c => c) :=
      List.map_congr_left (fun c hc => toLower_fixes_slugToPath hc)
    rw [h1]
    simp
  rw [show slugToPath (slugToPath s) = replaceChar '*' starRepl
    (replaceChar ':' colonRepl
      (replaceDColon dcolonRepl ((slugToPath s).map Char.toLower))) from rfl]
  rw [hmap, replaceDColon_eq_self (colon_not_mem_slugToPath s),
    replaceChar_eq_self (colon_not_mem_slugToPath s),
    replaceChar_eq_self (star_not_mem_slugToPath s)]

/-- C8: the npm-stats generator refreshes a package exactly when the force
flag is set, or the package has no entry, or the entry lacks a timestamp,
or the timestamp is more than one week old. -/
theorem claim_C8_refresh_iff (force : Bool) (now : Int)
    (packages : List String) (existing : JsObj StatsEntry) (pkg : String) :
    pkg ∈ packagesToRefresh force now packages existing ↔
      pkg ∈ packages ∧ (force = true ∨ jsGet existing pkg = none ∨
        (∃ e, jsGet existing pkg = some e ∧ e.lastModified = none) ∨
        (∃ e lm, jsGet existing pkg = some e ∧ e.lastModified = some lm ∧
          now - lm > ONE_WEEK_MS)) := by
  unfold packagesToRefresh
  rw [List.mem_filter]
  have h : needsRefresh force now (jsGet existing pkg) = true ↔
      (force = true ∨ jsGet existing pkg = none ∨
        (∃ e, jsGet existing pkg = some e ∧ e.lastModified = none) ∨
        (∃ e lm, jsGet existing pkg = some e ∧ e.lastModified = some lm ∧
          now - lm > ONE_WEEK_MS)) := by
    unfold needsRefresh
    cases force with
    | true => simp
    | false =>
      cases hg : jsGet existing pkg with
      | none => simp
      | some e =>
        cases hlm : e.lastModified with
        | none => simp [hlm]
        | some lm => simp [hlm]
  rw [h]

/-- Counterexample to C9: on `.../package/foo/bar` the extractor captures
the two-segment name `foo/bar` although it does not start with `@` — the
second '/'-separated segment is not restricted to the scoped form. -/
theorem claim_C9_cex :
    extractNpmPackage "https://www.npmjs.com/package/foo/bar".data
        = some "foo/bar".data ∧
      '/' ∈ "foo/bar".data ∧ "foo/bar".data.head? ≠ some '@' := by
  refine ⟨by decide, by decide, by decide⟩

/-- C9 (amended): extraction succeeds exactly on urls containing the literal
`npmjs.com/package/` followed by at least one name character (anything but
`/`, `?`, `#`), and the captured name takes a second '/'-separated run
whenever one is present, regardless of whether the name starts with `@`. -/
theorem claim_C9_extract_amended :
    (∀ url : List Char, (extractNpmPackage url).isSome = true ↔
      ∃ i, npmLit.isPrefixOf (url.drop i) = true ∧
        nameStart (url.drop (i + npmLit.length)) = true) ∧
    (∀ a b : List Char, a ≠ [] → (∀ c ∈ a, segChar c = true) → b ≠ [] →
      (∀ c ∈ b, segChar c = true) →
      extractNpmPackage (npmLit ++ (a ++ '/' :: (b ++ ['/'])))
        = some (a ++ '/' :: b)) := by
  refine ⟨extractNpmPackage_isSome_iff, ?_⟩
  intro a b ha haseg hb hbseg
  exact extractNpmPackage_lit _ _ (matchPkgName_two_segs a b ha haseg hb hbseg)

/-- Witness for the amended C9 at a concrete unscoped two-segment url. -/
theorem claim_C9_witness :
    extractNpmPackage (npmLit ++ ("foo".data ++ '/' :: ("bar".data ++ ['/'])))
      = some ("foo".data ++ '/' :: "bar".data) :=
  claim_C9_extract_amended.2 "foo".data "bar".data (by decide) (by decide)
    (by decide) (by decide)

/-- C10: when the fetch for a package fails, an existing stats entry is
carried into the output unchanged, and a `downloads: null` record is
written only for packages that had no prior entry. -/
theorem claim_C10_failed_fetch (force : Bool) (now : Int)
    (fetchRes : String → Option Int) (packages : List String)
    (existing : JsObj StatsEntry) (pkg : String) :
    (∀ e, fetchRes pkg = none → jsGet existing pkg = some e →
      jsGet (fetchAllStats force now fetchRes packages existing) pkg = some e) ∧
    (pkg ∈ packages → fetchRes pkg = none → jsGet existing pkg = none →
      jsGet (fetchAllStats force now fetchRes packages existing) pkg
        = some (StatsEntry.mk none (some now))) := by
  constructor
  · intro e hf he
    exact jsGet_statsFold_of_some fetchRes now _ pkg e existing hf he
  · intro hmem hf he
    refine jsGet_statsFold_of_none fetchRes now _ pkg existing ?_ hf he
    unfold packagesToRefresh
    rw [List.mem_filter]
    refine ⟨hmem, ?_⟩
    unfold needsRefresh
    rw [he]
    cases force <;> simp

/-- Witness for C10: with every fetch failing, the package with a prior
entry keeps it verbatim and the package without one gets a null record. -/
theorem claim_C10_witness :
    jsGet (fetchAllStats false 1 (fun _ => none) ["p", "q"]
        [("p", StatsEntry.mk (some 5) (some 0))]) "p"
      = some (StatsEntry.mk (some 5) (some 0)) ∧
    jsGet (fetchAllStats false 1 (fun _ => none) ["p", "q"]
        [("p", StatsEntry.mk (some 5) (some 0))]) "q"
      = some (StatsEntry.mk none (some 1)) :=
  ⟨(claim_C10_failed_fetch false 1 (fun _ => none) ["p", "q"]
      [("p", StatsEntry.mk (some 5) (some 0))] "p").1
      (StatsEntry.mk (some 5) (some 0)) rfl (by decide),
   (claim_C10_failed_fetch false 1 (fun _ => none) ["p", "q"]
      [("p", StatsEntry.mk (some 5) (some 0))] "q").2 (by decide) rfl (by decide)⟩
